import Mathlib

/-!
Shallow embedding of the advbet/rng Go library (rand.go / util.go, reader-based
core in the unnamed source part defining ReadUint64Bits, ReadIntn, ReadFloat64,
ReadPerm and ReadSample), together with proofs of the specification claims.

Modelling conventions:
* An entropy source (io.Reader) is a finite list of bytes; reading more bytes
  than remain models a short read / IO error (io.ReadFull fails).
* Go panics are modelled as an error value (RngError); panic on precondition
  violation is invalidArgument, panic on a failed source read is sourceError.
* uint64 arithmetic is carried out on Nat with explicit reduction mod 2^64
  (UINT64); Go's wrapping subtraction a - b is wsub a b.
* Go int is a 64-bit signed integer; it is modelled as Int, and theorems about
  int inputs carry the bound n < 2^63 that every positive Go int satisfies.
* The unbounded rejection loops are modelled with explicit fuel; a result of
  none means the fuel ran out (not a behaviour of the program), and every
  claim about returned values is stated for all fuel values.
-/

namespace Rng

/-- Error outcomes of the library: precondition violations (Go panic with a
message) and entropy-source read failures (Go panic on io.ReadFull error). -/
inductive RngError where
  | invalidArgument : String → RngError
  | sourceError : RngError
deriving DecidableEq, Repr

/-- An entropy source: the stream of bytes the io.Reader will produce. -/
abbrev Src := List (Fin 256)

/-- Modulus of Go uint64 arithmetic. -/
def UINT64 : Nat := 2 ^ 64

/-- Go uint64 subtraction a - b (wrapping mod 2^64) on values already
reduced mod 2^64. -/
def wsub (a b : Nat) : Nat := (a + (UINT64 - b % UINT64)) % UINT64

/-- Embedding of minBytes from util.go: minimum number of bytes needed to
store a given number in binary form (the cascade of switch cases). -/
def minBytes (n : Nat) : Nat :=
  if n = 0 then 0
  else if n ≤ 0xff then 1
  else if n ≤ 0xffff then 2
  else if n ≤ 0xffffff then 3
  else if n ≤ 0xffffffff then 4
  else if n ≤ 0xffffffffff then 5
  else if n ≤ 0xffffffffffff then 6
  else if n ≤ 0xffffffffffffff then 7
  else 8

/-- Embedding of io.ReadFull src b[:k]: take k bytes from the front of the
source, failing (Go panic) when fewer than k bytes remain. -/
def readFull (src : Src) (k : Nat) : Except RngError (List (Fin 256) × Src) :=
  if k ≤ src.length then .ok (src.take k, src.drop k) else .error .sourceError

/-- The little-endian assembly of the 8-byte buffer b in ReadUint64Bits:
uint64(b[0]) | uint64(b[1])<<8 | ... | uint64(b[7])<<56. -/
def assembleLE (b : List (Fin 256)) : Nat :=
  (b.getD 0 0).val ||| (b.getD 1 0).val <<< 8 ||| (b.getD 2 0).val <<< 16 |||
    (b.getD 3 0).val <<< 24 ||| (b.getD 4 0).val <<< 32 |||
    (b.getD 5 0).val <<< 40 ||| (b.getD 6 0).val <<< 48 |||
    (b.getD 7 0).val <<< 56

/-- The mask (1 << n) - 1 computed in Go uint64 arithmetic: the shift of 1
by n places truncated to 64 bits, followed by a wrapping subtraction of 1
(so for n = 64 the shift wraps to 0 and the mask is all ones). -/
def goMask (n : Nat) : Nat := wsub (2 ^ n % UINT64) 1

/-- Embedding of ReadUint64Bits: reads ceil(n/8) bytes from the source into
the low bytes of a zeroed 8-byte little-endian buffer and masks away all but
the n least significant bits.  Panics (invalidArgument) when n > 64, and
propagates a source read failure. -/
def ReadUint64Bits (src : Src) (n : Nat) : Except RngError (Nat × Src) :=
  if 64 < n then
    .error (.invalidArgument "abr.Uint64Bits can not return more than 64 random bits")
  else
    match readFull src ((n + 7) / 8) with
    | .error e => .error e
    | .ok (bs, rest) =>
      .ok (assembleLE (bs ++ List.replicate (8 - (n + 7) / 8) (0 : Fin 256)) &&& goMask n,
        rest)

theorem minBytes_le_eight (n : Nat) : minBytes n ≤ 8 := by
  unfold minBytes; split_ifs <;> omega

theorem lt_two_pow_minBytes {n : Nat} (h : n < 2 ^ 64) :
    n < 2 ^ (minBytes n * 8) := by
  unfold minBytes
  split_ifs with h0 h1 h2 h3 h4 h5 h6 h7 <;> norm_num <;> omega

theorem goMask_eq {n : Nat} (h : n ≤ 64) : goMask n = 2 ^ n - 1 := by
  have hle : 2 ^ n ≤ 2 ^ 64 := Nat.pow_le_pow_right (by norm_num) h
  have h64 : (2 : Nat) ^ 64 = 18446744073709551616 := by norm_num
  unfold goMask wsub UINT64
  rw [h64] at hle ⊢
  have h0 : 0 < 2 ^ n := Nat.pos_pow_of_pos n (by norm_num)
  omega

theorem assembleLE_lt (b : List (Fin 256)) : assembleLE b < 2 ^ 64 := by
  unfold assembleLE
  have h : ∀ (x : Fin 256) (k : Nat), k ≤ 56 → x.val <<< k < 2 ^ 64 := by
    intro x k hk
    have hx := x.isLt
    calc x.val <<< k = x.val * 2 ^ k := Nat.shiftLeft_eq _ _
    _ < 256 * 2 ^ k :=
        (Nat.mul_lt_mul_right (Nat.pos_pow_of_pos k (by norm_num))).mpr hx
    _ = 2 ^ (k + 8) := by rw [Nat.pow_add]; ring
    _ ≤ 2 ^ 64 := Nat.pow_le_pow_right (by norm_num) (by omega)
  have h0 : (b.getD 0 0).val < 2 ^ 64 :=
    lt_of_lt_of_le (b.getD 0 0).isLt (by norm_num)
  refine Nat.or_lt_two_pow ?_ (h _ 56 (by norm_num))
  refine Nat.or_lt_two_pow ?_ (h _ 48 (by norm_num))
  refine Nat.or_lt_two_pow ?_ (h _ 40 (by norm_num))
  refine Nat.or_lt_two_pow ?_ (h _ 32 (by norm_num))
  refine Nat.or_lt_two_pow ?_ (h _ 24 (by norm_num))
  refine Nat.or_lt_two_pow ?_ (h _ 16 (by norm_num))
  exact Nat.or_lt_two_pow h0 (h _ 8 (by norm_num))

theorem readUint64Bits_lt {src : Src} {n : Nat} {r : Nat} {rest : Src}
    (hn : n ≤ 64) (h : ReadUint64Bits src n = .ok (r, rest)) : r < 2 ^ n := by
  unfold ReadUint64Bits at h
  rw [if_neg (by omega)] at h
  split at h
  · exact absurd h (by simp)
  · simp only [Except.ok.injEq, Prod.mk.injEq] at h
    obtain ⟨hr, _⟩ := h
    subst hr
    rw [goMask_eq hn]
    exact Nat.and_lt_two_pow _ (Nat.sub_lt (Nat.pos_pow_of_pos n (by norm_num)) one_pos)

theorem readUint64Bits_drop {src : Src} {n : Nat} {r : Nat} {rest : Src}
    (h : ReadUint64Bits src n = .ok (r, rest)) :
    rest = src.drop ((n + 7) / 8) ∧ (n + 7) / 8 ≤ src.length := by
  unfold ReadUint64Bits at h
  split_ifs at h
  unfold readFull at h
  split_ifs at h with hlen
  simp only [Except.ok.injEq, Prod.mk.injEq] at h
  exact ⟨h.2.symm, hlen⟩

/-- Conversion of a uint64 value (a Nat < 2^64) to a Go int (two's complement
reinterpretation), as performed by int(...) in ReadIntn. -/
def intOfUint64 (u : Nat) : Int :=
  if u < 2 ^ 63 then (u : Int) else (u : Int) - (UINT64 : Int)

/-- The value M := uint64(1 << bits) of ReadIntn: the shift truncated to
64 bits, so it wraps to 0 when bits = 64. -/
def goM (bits : Nat) : Nat := 2 ^ bits % UINT64

/-- The value limit := M - (M-N)%N of ReadIntn, in wrapping uint64
arithmetic. -/
def goLimit (N bits : Nat) : Nat := wsub (goM bits) (wsub (goM bits) N % N)

/-- The rejection loop of ReadIntn: draw r := ReadUint64Bits(src, bits) and
accept (returning r % N) when r < limit, otherwise redraw.  The loop is given
explicit fuel; none means the fuel ran out. -/
def rejectLoop (bits N limit : Nat) : Nat → Src → Option (Except RngError (Nat × Src))
  | 0, _ => none
  | fuel + 1, src =>
    match ReadUint64Bits src bits with
    | .error e => some (.error e)
    | .ok (r, src') =>
      if r < limit then some (.ok (r % N, src')) else rejectLoop bits N limit fuel src'

/-- Embedding of ReadIntn: panics (invalidArgument) when n <= 0; otherwise
sets N := uint64(n) and bits := minBytes(N-1)*8, takes the single-extraction
fast path return int(ReadUint64Bits(src, bits) & (N-1)) when N is a power of
two (N&(N-1) == 0), and otherwise runs the rejection loop with
limit := M - (M-N)%N, returning int(r % N) for the accepted draw r. -/
def ReadIntn (fuel : Nat) (src : Src) (n : Int) : Option (Except RngError (Int × Src)) :=
  if n ≤ 0 then some (.error (.invalidArgument "invalid argument to Intn")) else
  if n.toNat &&& (n.toNat - 1) = 0 then
    some ((ReadUint64Bits src (minBytes (n.toNat - 1) * 8)).map
      fun p => (intOfUint64 (p.1 &&& (n.toNat - 1)), p.2))
  else
    match rejectLoop (minBytes (n.toNat - 1) * 8) n.toNat
        (goLimit n.toNat (minBytes (n.toNat - 1) * 8)) fuel src with
    | none => none
    | some (.error e) => some (.error e)
    | some (.ok (r, src')) => some (.ok (intOfUint64 r, src'))

/-- Embedding of ReadFloat64: float64(ReadUint64Bits(src, 53)) / float64(1<<53).
The drawn integer is < 2^53, hence exactly representable in IEEE-754 binary64,
and division by the power of two 2^53 is exact (it only shifts the exponent,
and no underflow can occur for these values), so the Go float computation is
modelled by exact rational arithmetic. -/
def ReadFloat64 (src : Src) : Except RngError (Rat × Src) :=
  match ReadUint64Bits src 53 with
  | .error e => .error e
  | .ok (r, rest) => .ok ((r : Rat) / 2 ^ 53, rest)

theorem wsub_eq {a b : Nat} (h1 : b ≤ a) (h3 : a - b < 2 ^ 64) :
    wsub (a % UINT64) b = a - b := by
  have h64 : UINT64 = 18446744073709551616 := by norm_num [UINT64]
  unfold wsub
  rw [h64] at *
  omega

theorem goLimit_eq {N bits : Nat} (hN1 : 1 ≤ N) (hNle : N ≤ 2 ^ bits)
    (hbits : bits ≤ 64) (hrem : 2 ^ bits % N ≠ 0) :
    goLimit N bits = 2 ^ bits - 2 ^ bits % N := by
  have hA64 : 2 ^ bits ≤ 2 ^ 64 := Nat.pow_le_pow_right (by norm_num) hbits
  unfold goLimit goM
  rw [wsub_eq hNle (by omega)]
  have hmod : (2 ^ bits - N) % N = 2 ^ bits % N := by
    conv_rhs => rw [← Nat.sub_add_cancel hNle]
    rw [Nat.add_mod_right]
  rw [hmod]
  have hlt : 2 ^ bits % N < N := Nat.mod_lt _ (by omega)
  exact wsub_eq (le_trans (le_of_lt hlt) hNle) (by omega)

theorem not_pow_two_mod_ne_zero {N bits : Nat} (h2 : ∀ k : Nat, N ≠ 2 ^ k) :
    2 ^ bits % N ≠ 0 := by
  intro h0
  have hdvd : N ∣ 2 ^ bits := Nat.dvd_of_mod_eq_zero h0
  obtain ⟨k, _, hk⟩ := (Nat.dvd_prime_pow Nat.prime_two).mp hdvd
  exact h2 k hk

theorem minBytes_pos_bits {N : Nat} (hN3 : 3 ≤ N) : 1 ≤ minBytes (N - 1) := by
  unfold minBytes; split_ifs <;> omega

/-- C1: in the general (non-power-of-two) case of ReadIntn, with
N = n as uint64 and bits = minBytes(N-1)*8, the wrapping uint64 computation
limit = M - (M - N) mod N (goLimit) equals the largest multiple of N not
exceeding the true value 2^bits (even when 2^bits wraps to 0 in uint64 for
bits = 64), and this limit is at least 2^bits / 2, so each rejection-loop
iteration accepts with probability above 0.5. -/
theorem goLimit_largest_multiple (n : Int) (hpos : 0 < n) (hint : n < 2 ^ 63)
    (hnp2 : ∀ k : Nat, n ≠ 2 ^ k) :
    goLimit n.toNat (minBytes (n.toNat - 1) * 8) =
      n.toNat * (2 ^ (minBytes (n.toNat - 1) * 8) / n.toNat) ∧
    n.toNat ∣ goLimit n.toNat (minBytes (n.toNat - 1) * 8) ∧
    goLimit n.toNat (minBytes (n.toNat - 1) * 8) ≤ 2 ^ (minBytes (n.toNat - 1) * 8) ∧
    (∀ m : Nat, n.toNat ∣ m → m ≤ 2 ^ (minBytes (n.toNat - 1) * 8) →
      m ≤ goLimit n.toNat (minBytes (n.toNat - 1) * 8)) ∧
    2 ^ (minBytes (n.toNat - 1) * 8) / 2 ≤ goLimit n.toNat (minBytes (n.toNat - 1) * 8) := by
  set N := n.toNat with hNdef
  have hN1 : 1 ≤ N := by omega
  have hNlt : N < 2 ^ 63 := by omega
  have hnp2N : ∀ k : Nat, N ≠ 2 ^ k := by
    intro k hk
    apply hnp2 k
    have hn : n = (N : Int) := by rw [hNdef, Int.toNat_of_nonneg (le_of_lt hpos)]
    rw [hn, hk]; push_cast; ring
  set bits := minBytes (N - 1) * 8 with hbitsdef
  have hbits64 : bits ≤ 64 := by
    have := minBytes_le_eight (N - 1); omega
  have hNle : N ≤ 2 ^ bits := by
    have h1 : N - 1 < 2 ^ 64 := by
      have : (2:Nat) ^ 63 ≤ 2 ^ 64 := by norm_num
      omega
    have hlt := lt_two_pow_minBytes h1
    rw [← hbitsdef] at hlt
    omega
  have hrem : 2 ^ bits % N ≠ 0 := not_pow_two_mod_ne_zero hnp2N
  have hlim := goLimit_eq hN1 hNle hbits64 hrem
  have hdm := Nat.div_add_mod (2 ^ bits) N
  have hmlt : 2 ^ bits % N < N := Nat.mod_lt _ (by omega)
  have hmain : goLimit N bits = N * (2 ^ bits / N) := by omega
  refine ⟨hmain, ⟨_, hmain⟩, by omega, ?_, ?_⟩
  · intro m hdvd hle
    obtain ⟨q, hq⟩ := hdvd
    have hqle : q ≤ 2 ^ bits / N := by
      rw [Nat.le_div_iff_mul_le (by omega)]
      calc q * N = N * q := by ring
      _ ≤ 2 ^ bits := by omega
    calc m = N * q := hq
    _ ≤ N * (2 ^ bits / N) := Nat.mul_le_mul_left N hqle
    _ = goLimit N bits := hmain.symm
  · -- the rejection bound: limit is at least half of 2^bits
    have hN3 : 3 ≤ N := by
      rcases Nat.lt_or_ge N 3 with h | h
      · interval_cases N
        · exact absurd rfl (hnp2N 0)
        · exact absurd rfl (hnp2N 1)
      · exact h
    have hb1 : 1 ≤ bits := by
      have := minBytes_pos_bits hN3; omega
    have heven : 2 ^ bits = 2 * 2 ^ (bits - 1) := by
      conv_lhs => rw [show bits = 1 + (bits - 1) by omega]
      rw [pow_add]; ring
    rcases Nat.lt_or_ge (2 ^ bits) (2 * N) with hcase | hcase
    · have hmodeq : 2 ^ bits % N = 2 ^ bits - N := by
        rw [Nat.mod_eq_sub_mod hNle, Nat.mod_eq_of_lt (by omega)]
      omega
    · omega

/-- Witness for C1 at the concrete input n = 65 (bits = 8, M = 256,
limit = 195 = 65 * 3, which is at least 256 / 2). -/
theorem goLimit_largest_multiple_witness :
    goLimit 65 8 = 65 * (2 ^ 8 / 65) ∧ 2 ^ 8 / 2 ≤ goLimit 65 8 := by
  have hnp : ∀ k : Nat, (65 : Int) ≠ 2 ^ k := by
    intro k
    rcases Nat.lt_or_ge k 7 with hk | hk
    · interval_cases k <;> norm_num
    · have h2 : (2 : Int) ^ 7 ≤ 2 ^ k := pow_le_pow_right₀ (by norm_num) hk
      norm_num at h2 ⊢
      omega
  have h := goLimit_largest_multiple 65 (by norm_num) (by norm_num) hnp
  have e1 : (65 : Int).toNat = 65 := rfl
  have e2 : minBytes (65 - 1) * 8 = 8 := by norm_num [minBytes]
  rw [e1, e2] at h
  exact ⟨h.1, h.2.2.2.2⟩

/-- C5: minBytes n equals ceil(bitlength(n)/8) for every uint64 value n
(Nat.size n is the bit length of n, with Nat.size 0 = 0), the result is
always at most 8, and the concrete values minBytes 0x100 = 2 and
minBytes 0xff = 1 hold. -/
theorem minBytes_spec :
    (∀ n : Nat, n < 2 ^ 64 → minBytes n = (Nat.size n + 7) / 8 ∧ minBytes n ≤ 8) ∧
    minBytes 0x100 = 2 ∧ minBytes 0xff = 1 := by
  refine ⟨?_, by decide, by decide⟩
  intro n hn
  refine ⟨?_, minBytes_le_eight n⟩
  unfold minBytes
  split_ifs with h0 h1 h2 h3 h4 h5 h6 h7
  · subst h0; simp
  · have hu : Nat.size n ≤ 8 := Nat.size_le.mpr (by omega)
    have hl : 0 < Nat.size n := Nat.lt_size.mpr (by norm_num; omega)
    omega
  · have hu : Nat.size n ≤ 16 := Nat.size_le.mpr (by norm_num; omega)
    have hl : 8 < Nat.size n := Nat.lt_size.mpr (by norm_num; omega)
    omega
  · have hu : Nat.size n ≤ 24 := Nat.size_le.mpr (by norm_num; omega)
    have hl : 16 < Nat.size n := Nat.lt_size.mpr (by norm_num; omega)
    omega
  · have hu : Nat.size n ≤ 32 := Nat.size_le.mpr (by norm_num; omega)
    have hl : 24 < Nat.size n := Nat.lt_size.mpr (by norm_num; omega)
    omega
  · have hu : Nat.size n ≤ 40 := Nat.size_le.mpr (by norm_num; omega)
    have hl : 32 < Nat.size n := Nat.lt_size.mpr (by norm_num; omega)
    omega
  · have hu : Nat.size n ≤ 48 := Nat.size_le.mpr (by norm_num; omega)
    have hl : 40 < Nat.size n := Nat.lt_size.mpr (by norm_num; omega)
    omega
  · have hu : Nat.size n ≤ 56 := Nat.size_le.mpr (by norm_num; omega)
    have hl : 48 < Nat.size n := Nat.lt_size.mpr (by norm_num; omega)
    omega
  · have hu : Nat.size n ≤ 64 := Nat.size_le.mpr (by norm_num; omega)
    have hl : 56 < Nat.size n := Nat.lt_size.mpr (by norm_num; omega)
    omega

/-- Witness for C5 at the concrete input n = 0x100. -/
theorem minBytes_spec_witness :
    minBytes 0x100 = (Nat.size 0x100 + 7) / 8 ∧ minBytes 0x100 ≤ 8 :=
  minBytes_spec.1 0x100 (by norm_num)

theorem rejectLoop_ok {bits N limit : Nat} (hN : 0 < N) :
    ∀ fuel (src : Src) w src',
      rejectLoop bits N limit fuel src = some (.ok (w, src')) → w < N := by
  intro fuel
  induction fuel with
  | zero => intro src w src' h; exact absurd h (by simp [rejectLoop])
  | succ fuel ih =>
    intro src w src' h
    unfold rejectLoop at h
    split at h
    · simp at h
    · rename_i r src₂ heq
      split_ifs at h
      · simp only [Option.some.injEq, Except.ok.injEq, Prod.mk.injEq] at h
        rw [← h.1]
        exact Nat.mod_lt _ hN
      · exact ih src₂ w src' h

theorem intOfUint64_of_lt {u : Nat} (hu : u < 2 ^ 63) : intOfUint64 u = (u : Int) := by
  unfold intOfUint64
  rw [if_pos hu]

theorem readIntn_range_aux (n : Int) (h0 : 0 < n) (h63 : n < 2 ^ 63) :
    ∀ fuel (src : Src) v src',
      ReadIntn fuel src n = some (.ok (v, src')) → 0 ≤ v ∧ v < n := by
  intro fuel src v src' h
  have hn : n = ((n.toNat : Nat) : Int) := by omega
  have hN0 : 0 < n.toNat := by omega
  have hN63 : n.toNat < 2 ^ 63 := by
    have h2 : ((2 : Int) ^ 63) = ((2 ^ 63 : Nat) : Int) := by norm_num
    omega
  unfold ReadIntn at h
  rw [if_neg (by omega)] at h
  split_ifs at h with hp2
  · -- power-of-two fast path
    cases hr : ReadUint64Bits src (minBytes (n.toNat - 1) * 8) with
    | error e => rw [hr] at h; simp [Except.map] at h
    | ok p =>
      rw [hr] at h
      simp only [Except.map, Option.some.injEq, Except.ok.injEq, Prod.mk.injEq] at h
      obtain ⟨hv, _⟩ := h
      have hband : p.1 &&& (n.toNat - 1) < n.toNat :=
        lt_of_le_of_lt Nat.and_le_right (by omega)
      rw [← hv, intOfUint64_of_lt (by omega)]
      constructor
      · exact Int.ofNat_nonneg _
      · rw [hn]; exact_mod_cast hband
  · -- rejection-sampling path
    split at h
    · simp at h
    · simp at h
    · rename_i r src₂ heq
      simp only [Option.some.injEq, Except.ok.injEq, Prod.mk.injEq] at h
      obtain ⟨hv, _⟩ := h
      have hrN : r < n.toNat := rejectLoop_ok hN0 fuel src r src₂ heq
      rw [← hv, intOfUint64_of_lt (by omega)]
      constructor
      · exact Int.ofNat_nonneg _
      · rw [hn]; exact_mod_cast hrN

/-- C2: whenever ReadIntn returns a value, that value lies in [0, n) — it is
never negative and never at least n — on both the power-of-two fast path and
the rejection-sampling path (n < 2^63 is the bound every positive Go int
satisfies). -/
theorem readIntn_in_range (n : Int) (h0 : 0 < n) (h63 : n < 2 ^ 63) :
    ∀ fuel (src : Src) v src',
      ReadIntn fuel src n = some (.ok (v, src')) → 0 ≤ v ∧ v < n :=
  readIntn_range_aux n h0 h63

/-- Witness for C2 at n = 3 with the one-byte source 0x05: the drawn value 5
is below limit = 255 and reduces to 5 mod 3 = 2, which lies in [0, 3). -/
theorem readIntn_in_range_witness : (0 : Int) ≤ 2 ∧ (2 : Int) < 3 :=
  readIntn_in_range 3 (by norm_num) (by norm_num) 1 [(5 : Fin 256)] 2 [] (by rfl)

/-- C3: for n in [0, 64], every bit of the value returned by ReadUint64Bits
at a position at least n is zero; and for n = 64 the mask is all ones, so the
assembled little-endian 64-bit value is returned unchanged. -/
theorem readUint64Bits_mask (n : Nat) (hn : n ≤ 64) :
    ∀ (src : Src) r rest, ReadUint64Bits src n = .ok (r, rest) →
      (∀ i : Nat, n ≤ i → r.testBit i = false) ∧
      (n = 64 → r = assembleLE (src.take 8)) := by
  intro src r rest h
  have hr2 : r < 2 ^ n := readUint64Bits_lt hn h
  constructor
  · intro i hi
    exact Nat.testBit_lt_two_pow
      (lt_of_lt_of_le hr2 (Nat.pow_le_pow_right (by norm_num) hi))
  · intro h64
    subst h64
    unfold ReadUint64Bits at h
    rw [if_neg (by omega)] at h
    unfold readFull at h
    split_ifs at h with hlen
    simp only [Except.ok.injEq, Prod.mk.injEq] at h
    obtain ⟨hr, _⟩ := h
    norm_num at hr
    rw [← hr, goMask_eq (le_refl 64), Nat.and_pow_two_sub_one_eq_mod]
    exact Nat.mod_eq_of_lt (assembleLE_lt _)

/-- Witness for C3 with n = 9 and the two-byte all-ones source: the returned
value is 0x1ff, whose bits at positions at least 9 are all zero. -/
theorem readUint64Bits_mask_witness :
    (∀ i : Nat, 9 ≤ i → Nat.testBit 511 i = false) ∧
    (9 = 64 → 511 = assembleLE (List.take 8 [(255 : Fin 256), 255])) :=
  readUint64Bits_mask 9 (by norm_num) [(255 : Fin 256), 255] 511 [] (by rfl)

/-- C4: for n > 0 a power of two, ReadIntn takes the fast path: its result is
exactly one ReadUint64Bits extraction of bits = minBytes(n-1)*8 bits masked
with n-1 (independently of the loop fuel, so the rejection loop is never
entered), and on success exactly minBytes(n-1) bytes are consumed. -/
theorem readIntn_pow_two (n : Int) (h0 : 0 < n) (h63 : n < 2 ^ 63) (k : Nat)
    (hk : n = 2 ^ k) :
    ∀ fuel (src : Src),
      (ReadIntn fuel src n =
        some ((ReadUint64Bits src (minBytes (n.toNat - 1) * 8)).map
          fun p => (intOfUint64 (p.1 &&& (n.toNat - 1)), p.2))) ∧
      (∀ v src', ReadIntn fuel src n = some (.ok (v, src')) →
        src' = src.drop (minBytes (n.toNat - 1))) := by
  intro fuel src
  have hNk : n.toNat = 2 ^ k := by
    have hc : ((2 ^ k : Nat) : Int) = (2 : Int) ^ k := by push_cast; ring
    omega
  have hp2 : n.toNat &&& (n.toNat - 1) = 0 := by
    rw [hNk, Nat.and_pow_two_sub_one_eq_mod, Nat.mod_self]
  have hmain : ReadIntn fuel src n =
      some ((ReadUint64Bits src (minBytes (n.toNat - 1) * 8)).map
        fun p => (intOfUint64 (p.1 &&& (n.toNat - 1)), p.2)) := by
    unfold ReadIntn
    rw [if_neg (by omega), if_pos hp2]
  refine ⟨hmain, ?_⟩
  intro v src' h
  rw [hmain] at h
  cases hr : ReadUint64Bits src (minBytes (n.toNat - 1) * 8) with
  | error e => rw [hr] at h; simp [Except.map] at h
  | ok p =>
    rw [hr] at h
    simp only [Except.map, Option.some.injEq, Except.ok.injEq, Prod.mk.injEq] at h
    obtain ⟨p₁, p₂⟩ := p
    have hdrop := (readUint64Bits_drop hr).1
    have hbytes : (minBytes (n.toNat - 1) * 8 + 7) / 8 = minBytes (n.toNat - 1) := by
      omega
    rw [hbytes] at hdrop
    rw [← h.2]
    exact hdrop

/-- Witness for C4 at n = 4 with the one-byte source 0x0b. -/
theorem readIntn_pow_two_witness :
    ReadIntn 1 [(11 : Fin 256)] 4 =
      some ((ReadUint64Bits [(11 : Fin 256)] (minBytes ((4 : Int).toNat - 1) * 8)).map
        fun p => (intOfUint64 (p.1 &&& ((4 : Int).toNat - 1)), p.2)) :=
  (readIntn_pow_two 4 (by norm_num) (by norm_num) 2 (by norm_num) 1 [(11 : Fin 256)]).1

/-- C10: ReadIntn with n = 1 always succeeds and returns 0 without consuming
any bytes (bits = minBytes(0)*8 = 0, and the power-of-two path performs a
zero-byte read), for every source, including an empty one. -/
theorem readIntn_one (fuel : Nat) (src : Src) :
    ReadIntn fuel src 1 = some (.ok (0, src)) := by
  have hmask : goMask 0 = 0 := by decide
  have hread : ReadUint64Bits src 0 = .ok (0, src) := by
    unfold ReadUint64Bits readFull
    norm_num [hmask]
  unfold ReadIntn
  norm_num [hread, Except.map, intOfUint64]
  rw [show minBytes 0 * 8 = 0 from rfl, hread]

theorem readUint64Bits_error_src {src : Src} {n : Nat} {e : RngError}
    (hn : n ≤ 64) (h : ReadUint64Bits src n = .error e) : e = .sourceError := by
  unfold ReadUint64Bits at h
  rw [if_neg (by omega)] at h
  unfold readFull at h
  split_ifs at h
  simp only [Except.error.injEq] at h
  exact h.symm

theorem rejectLoop_error {bits N limit : Nat} (hb : bits ≤ 64) :
    ∀ fuel (src : Src) e,
      rejectLoop bits N limit fuel src = some (.error e) → e = .sourceError := by
  intro fuel
  induction fuel with
  | zero => intro src e h; simp [rejectLoop] at h
  | succ fuel ih =>
    intro src e h
    unfold rejectLoop at h
    split at h
    · rename_i e' heq
      simp only [Option.some.injEq, Except.error.injEq] at h
      rw [← h]
      exact readUint64Bits_error_src hb heq
    · split_ifs at h
      · simp at h
      · exact ih _ _ h

theorem readIntn_error_src {fuel : Nat} {src : Src} {n : Int} {e : RngError}
    (h0 : 0 < n) (h : ReadIntn fuel src n = some (.error e)) : e = .sourceError := by
  have hb : minBytes (n.toNat - 1) * 8 ≤ 64 := by
    have := minBytes_le_eight (n.toNat - 1); omega
  unfold ReadIntn at h
  rw [if_neg (by omega)] at h
  split_ifs at h with hp2
  · cases hr : ReadUint64Bits src (minBytes (n.toNat - 1) * 8) with
    | error e' =>
      rw [hr] at h
      simp only [Except.map, Option.some.injEq, Except.error.injEq] at h
      rw [← h]
      exact readUint64Bits_error_src hb hr
    | ok p => rw [hr] at h; simp [Except.map] at h
  · split at h
    · simp at h
    · rename_i e' heq
      simp only [Option.some.injEq, Except.error.injEq] at h
      rw [← h]
      exact rejectLoop_error hb fuel src e' heq
    · simp at h

/-- C8: ReadUint64Bits fails with invalidArgument exactly when n > 64, and
ReadIntn fails with invalidArgument exactly when n <= 0; in both functions
the failure does not depend on the source (it is signaled before any byte is
read, so it is the same even on an empty source); every other failure is a
propagated source error. -/
theorem invalid_argument_iff :
    (∀ (src : Src) (n : Nat),
        (∃ s, ReadUint64Bits src n = .error (.invalidArgument s)) ↔ 64 < n) ∧
    (∀ (src : Src) (n : Nat), 64 < n → ReadUint64Bits src n = ReadUint64Bits [] n) ∧
    (∀ (src : Src) (n : Nat) (e : RngError), n ≤ 64 →
        ReadUint64Bits src n = .error e → e = .sourceError) ∧
    (∀ fuel (src : Src) (n : Int),
        (∃ s, ReadIntn fuel src n = some (.error (.invalidArgument s))) ↔ n ≤ 0) ∧
    (∀ fuel (src : Src) (n : Int), n ≤ 0 → ReadIntn fuel src n = ReadIntn fuel [] n) ∧
    (∀ fuel (src : Src) (n : Int) (e : RngError), 0 < n →
        ReadIntn fuel src n = some (.error e) → e = .sourceError) := by
  refine ⟨?_, ?_, ?_, ?_, ?_, ?_⟩
  · intro src n
    constructor
    · rintro ⟨s, hs⟩
      by_contra hle
      have := readUint64Bits_error_src (by omega) hs
      simp at this
    · intro hgt
      refine ⟨"abr.Uint64Bits can not return more than 64 random bits", ?_⟩
      unfold ReadUint64Bits
      rw [if_pos hgt]
  · intro src n hgt
    unfold ReadUint64Bits
    rw [if_pos hgt, if_pos hgt]
  · intro src n e hle h
    exact readUint64Bits_error_src hle h
  · intro fuel src n
    constructor
    · rintro ⟨s, hs⟩
      by_contra hpos
      have := readIntn_error_src (by omega) hs
      simp at this
    · intro hle
      refine ⟨"invalid argument to Intn", ?_⟩
      unfold ReadIntn
      rw [if_pos hle]
  · intro fuel src n hle
    unfold ReadIntn
    rw [if_pos hle, if_pos hle]
  · intro fuel src n e h0 h
    exact readIntn_error_src h0 h

/-- Witness for C8: concrete invalid arguments n = 65 and n = -1 fail with
invalidArgument even on the empty source, and the failure of a byte-starved
read with valid n = 8 is classified as a source error. -/
theorem invalid_argument_iff_witness :
    (∃ s, ReadUint64Bits [] 65 = .error (.invalidArgument s)) ∧
    (∃ s, ReadIntn 0 [] (-1) = some (.error (.invalidArgument s))) ∧
    RngError.sourceError = RngError.sourceError :=
  ⟨(invalid_argument_iff.1 [] 65).mpr (by norm_num),
   (invalid_argument_iff.2.2.2.1 0 [] (-1)).mpr (by norm_num),
   invalid_argument_iff.2.2.1 [] 8 RngError.sourceError (by norm_num) (by rfl)⟩

/-- C9: whenever ReadFloat64 returns, its result is the 53-bit integer drawn
via ReadUint64Bits(src, 53) divided by 2^53, and lies in [0, 1). -/
theorem readFloat64_range :
    ∀ (src : Src) q rest, ReadFloat64 src = .ok (q, rest) →
      (∃ r : Nat, ReadUint64Bits src 53 = .ok (r, rest) ∧ q = (r : Rat) / 2 ^ 53) ∧
      0 ≤ q ∧ q < 1 := by
  intro src q rest h
  unfold ReadFloat64 at h
  split at h
  · simp at h
  · rename_i r rest' heq
    simp only [Except.ok.injEq, Prod.mk.injEq] at h
    obtain ⟨hq, hrest⟩ := h
    subst hrest
    refine ⟨⟨r, heq, hq.symm⟩, ?_, ?_⟩
    · rw [← hq]; positivity
    · rw [← hq]
      have hr : r < 2 ^ 53 := readUint64Bits_lt (by norm_num) heq
      rw [div_lt_one (by positivity)]
      exact_mod_cast hr

/-- Witness for C9 on the seven-byte all-ones source: the drawn integer is
2^53 - 1 and the result is (2^53 - 1) / 2^53, inside [0, 1). -/
theorem readFloat64_range_witness :
    (∃ r : Nat, ReadUint64Bits (List.replicate 7 (255 : Fin 256)) 53 =
        .ok (r, []) ∧
        ((9007199254740991 : Nat) : Rat) / 2 ^ 53 = (r : Rat) / 2 ^ 53) ∧
    (0 : Rat) ≤ ((9007199254740991 : Nat) : Rat) / 2 ^ 53 ∧
    ((9007199254740991 : Nat) : Rat) / 2 ^ 53 < 1 :=
  readFloat64_range (List.replicate 7 (255 : Fin 256))
    (((9007199254740991 : Nat) : Rat) / 2 ^ 53) [] (by rfl)

/-- The body of the ReadPerm loop: for each of the remaining steps, with i
the current index, draw j := ReadIntn(src, i+1) and perform
m[i] = m[j]; m[j] = i. -/
def readPermLoop (fuel : Nat) : Nat → Nat → List Int → Src → Option (Except RngError (List Int × Src))
  | _, 0, m, src => some (.ok (m, src))
  | i, steps + 1, m, src =>
    match ReadIntn fuel src ((i : Int) + 1) with
    | none => none
    | some (.error e) => some (.error e)
    | some (.ok (j, src')) =>
      readPermLoop fuel (i + 1) steps
        ((m.set i (m.getD j.toNat 0)).set j.toNat (i : Int)) src'

/-- Embedding of ReadPerm: m := make([]int, n) (a zero slice), then the
Fisher-Yates loop for i from 0 to n-1.  (Go's make panics for n < 0; the
claims about ReadPerm only concern n >= 0, where toNat agrees with n.) -/
def ReadPerm (fuel : Nat) (src : Src) (n : Int) :
    Option (Except RngError (List Int × Src)) :=
  readPermLoop fuel 0 n.toNat (List.replicate n.toNat 0) src

theorem set_append_getD_perm :
    ∀ (p : List Int) (j : Nat), j < p.length → ∀ a : Int,
      (p.set j a ++ [p.getD j 0]).Perm (a :: p) := by
  intro p
  induction p with
  | nil => intro j hj; simp at hj
  | cons b t ih =>
    intro j hj a
    cases j with
    | zero =>
      simp only [List.set_cons_zero, List.getD_cons_zero]
      exact (List.perm_append_singleton b t).cons a
    | succ j =>
      simp only [List.set_cons_succ, List.getD_cons_succ, List.cons_append]
      exact ((ih j (by simpa using hj) a).cons b).trans (List.Perm.swap a b t)

theorem take_set_succ :
    ∀ (l : List Int) (i : Nat), i < l.length → ∀ a : Int,
      (l.set i a).take (i + 1) = l.take i ++ [a] := by
  intro l
  induction l with
  | nil => intro i hi; simp at hi
  | cons b t ih =>
    intro i hi a
    cases i with
    | zero => simp
    | succ i =>
      simp only [List.set_cons_succ, List.take_succ_cons, List.cons_append]
      rw [ih i (by simpa using hi) a]

theorem readPermLoop_spec (fuel : Nat) :
    ∀ steps i (m : List Int) (src : Src) out src',
      i + steps = m.length → m.length < 2 ^ 63 →
      (m.take i).Perm ((List.range i).map (fun k : Nat => (k : Int))) →
      readPermLoop fuel i steps m src = some (.ok (out, src')) →
      out.length = m.length ∧
        out.Perm ((List.range m.length).map (fun k : Nat => (k : Int))) := by
  intro steps
  induction steps with
  | zero =>
    intro i m src out src' hlen hbound hpre h
    unfold readPermLoop at h
    simp only [Option.some.injEq, Except.ok.injEq, Prod.mk.injEq] at h
    obtain ⟨hout, _⟩ := h
    subst hout
    have hi : i = m.length := by omega
    subst hi
    rw [List.take_length] at hpre
    exact ⟨rfl, hpre⟩
  | succ steps ih =>
    intro i m src out src' hlen hbound hpre h
    unfold readPermLoop at h
    split at h
    · simp at h
    · simp at h
    · rename_i j src₂ heq
      have hi1 : (0 : Int) < (i : Int) + 1 := by positivity
      have hc : ((2 : Int) ^ 63) = ((2 ^ 63 : Nat) : Int) := by norm_num
      have hia : ((i : Int) + 1) < 2 ^ 63 := by
        have hle : i + 1 ≤ m.length := by omega
        omega
      have hj := readIntn_range_aux ((i : Int) + 1) hi1 hia fuel src j src₂ heq
      have hjn : j.toNat ≤ i := by omega
      have hilt : i < m.length := by omega
      set m' := (m.set i (m.getD j.toNat 0)).set j.toNat (i : Int) with hm'
      have hlen' : m'.length = m.length := by simp [hm']
      have hpre' : (m'.take (i + 1)).Perm
          ((List.range (i + 1)).map (fun k : Nat => (k : Int))) := by
        rw [List.range_succ, List.map_append]
        rcases Nat.lt_or_ge j.toNat i with hji | hji
        · rw [hm', List.set_take, take_set_succ m i hilt _,
            List.set_append_left _ _ (by simp [List.length_take]; omega)]
          have hv : m.getD j.toNat 0 = (m.take i).getD j.toNat 0 := by
            simp [List.getD_eq_getElem?_getD, List.getElem?_take_of_lt hji]
          rw [hv]
          have hp1 := set_append_getD_perm (m.take i) j.toNat
            (by simp [List.length_take]; omega) (i : Int)
          refine hp1.trans ?_
          refine (hpre.cons _).trans ?_
          exact (List.perm_append_singleton _ _).symm
        · have hje : j.toNat = i := by omega
          rw [hm', hje, List.set_set, take_set_succ m i hilt _]
          exact hpre.append_right _
      have hrec := ih (i + 1) m' src₂ out src' (by omega) (by omega) hpre' h
      rw [hlen'] at hrec
      exact hrec

theorem readPerm_perm_aux (n : Int) (h0 : 0 ≤ n) (h63 : n < 2 ^ 63) :
    ∀ fuel (src : Src) out src',
      ReadPerm fuel src n = some (.ok (out, src')) →
      out.length = n.toNat ∧
      out.Perm ((List.range n.toNat).map (fun k : Nat => (k : Int))) ∧
      ∀ k : Nat, k < n.toNat → out.count ((k : Nat) : Int) = 1 := by
  intro fuel src out src' h
  unfold ReadPerm at h
  have hc : ((2 : Int) ^ 63) = ((2 ^ 63 : Nat) : Int) := by norm_num
  have hspec := readPermLoop_spec fuel n.toNat 0 (List.replicate n.toNat 0) src out src'
    (by simp) (by simp; omega) (by simp) h
  rw [List.length_replicate] at hspec
  obtain ⟨hlen, hperm⟩ := hspec
  refine ⟨hlen, hperm, ?_⟩
  intro k hk
  rw [hperm.count_eq]
  apply List.count_eq_one_of_mem
  · exact ((List.nodup_range n.toNat).map (fun a b hab => by exact_mod_cast hab))
  · simp only [List.mem_map, List.mem_range]
    exact ⟨k, hk, rfl⟩

/-- C6: whenever ReadPerm returns, the result has length n and is a
permutation of the integers [0, n): it contains each of them exactly once,
built by the Fisher-Yates steps j = ReadIntn(src, i+1); m[i] = m[j];
m[j] = i. -/
theorem readPerm_perm (n : Int) (h0 : 0 ≤ n) (h63 : n < 2 ^ 63) :
    ∀ fuel (src : Src) out src',
      ReadPerm fuel src n = some (.ok (out, src')) →
      out.length = n.toNat ∧
      out.Perm ((List.range n.toNat).map (fun k : Nat => (k : Int))) ∧
      ∀ k : Nat, k < n.toNat → out.count ((k : Nat) : Int) = 1 :=
  readPerm_perm_aux n h0 h63

/-- Witness for C6 at n = 3 with source bytes 0x01 0x02: the loop draws
j = 0, 1, 2 and produces the permutation [0, 1, 2]. -/
theorem readPerm_perm_witness :
    ([0, 1, 2] : List Int).length = (3 : Int).toNat ∧
    ([0, 1, 2] : List Int).Perm
      ((List.range (3 : Int).toNat).map (fun k : Nat => (k : Int))) ∧
    ∀ k : Nat, k < (3 : Int).toNat → ([0, 1, 2] : List Int).count ((k : Nat) : Int) = 1 :=
  readPerm_perm 3 (by norm_num) (by norm_num) 1 [(1 : Fin 256), 2] [0, 1, 2] [] (by rfl)

/-- The sparse-path loop of ReadSample: draw r := ReadIntn(src, n), skip it
when it was already chosen, append it otherwise, until k values are
collected.  Go tracks chosen values in a map cache; since every accepted draw
is inserted into both the cache and sample, the cache membership test is
exactly membership in sample.  loopFuel bounds the number of iterations. -/
def readSampleLoop (fuel : Nat) (n : Int) (k : Nat) :
    Nat → Src → List Int → Option (Except RngError (List Int × Src))
  | loopFuel, src, sample =>
    if sample.length < k then
      match loopFuel with
      | 0 => none
      | lf + 1 =>
        match ReadIntn fuel src n with
        | none => none
        | some (.error e) => some (.error e)
        | some (.ok (r, src')) =>
          if r ∈ sample then readSampleLoop fuel n k lf src' sample
          else readSampleLoop fuel n k lf src' (sample ++ [r])
    else some (.ok (sample, src))

/-- The body of ReadSample after k has been clamped to n (kk is the clamped
count): the dense path kk > n/2 takes the first kk entries of a full
permutation, the sparse path runs the rejection loop.  Go's integer division
n/2 truncates toward zero (Int.div). -/
def ReadSampleGo (fuel loopFuel : Nat) (src : Src) (n kk : Int) :
    Option (Except RngError (List Int × Src)) :=
  if Int.tdiv n 2 < kk then
    match ReadPerm fuel src n with
    | none => none
    | some (.error e) => some (.error e)
    | some (.ok (m, src')) => some (.ok (m.take kk.toNat, src'))
  else
    readSampleLoop fuel n kk.toNat loopFuel src []

/-- Embedding of ReadSample: if k > n then k = n, then dispatch on the
density test k > n/2. -/
def ReadSample (fuel loopFuel : Nat) (src : Src) (n k : Int) :
    Option (Except RngError (List Int × Src)) :=
  ReadSampleGo fuel loopFuel src n (if n < k then n else k)

theorem readSampleLoop_zero (fuel : Nat) (n : Int) (lf : Nat) (src : Src) :
    readSampleLoop fuel n 0 lf src [] = some (.ok ([], src)) := by
  unfold readSampleLoop
  simp

theorem readSampleLoop_spec (fuel : Nat) (n : Int) (k : Nat) (h0 : 0 < n)
    (h63 : n < 2 ^ 63) :
    ∀ loopFuel (src : Src) sample out src',
      sample.Nodup → (∀ x ∈ sample, 0 ≤ x ∧ x < n) → sample.length ≤ k →
      readSampleLoop fuel n k loopFuel src sample = some (.ok (out, src')) →
      out.length = k ∧ out.Nodup ∧ ∀ x ∈ out, 0 ≤ x ∧ x < n := by
  intro loopFuel
  induction loopFuel with
  | zero =>
    intro src sample out src' hnd hb hle h
    unfold readSampleLoop at h
    split_ifs at h with hlt
    simp only [Option.some.injEq, Except.ok.injEq, Prod.mk.injEq] at h
    obtain ⟨ho, -⟩ := h
    subst ho
    exact ⟨by omega, hnd, hb⟩
  | succ lf ih =>
    intro src sample out src' hnd hb hle h
    unfold readSampleLoop at h
    split_ifs at h with hlt
    · split at h
      · simp at h
      · rename_i loopFuelv lfv heqlf
        have hlf : lfv = lf := by omega
        subst hlf
        split at h
        · simp at h
        · simp at h
        · rename_i r src₂ heq
          have hr := readIntn_range_aux n h0 h63 fuel src r src₂ heq
          split_ifs at h with hmem
          · exact ih src₂ sample out src' hnd hb (by omega) h
          · refine ih src₂ (sample ++ [r]) out src' ?_ ?_ (by simp; omega) h
            · refine hnd.append (List.nodup_singleton r) ?_
              simp only [List.disjoint_singleton]
              exact hmem
            · intro x hx
              rcases List.mem_append.mp hx with hx | hx
              · exact hb x hx
              · simp at hx
                subst hx
                exact hr
    · simp only [Option.some.injEq, Except.ok.injEq, Prod.mk.injEq] at h
      obtain ⟨ho, -⟩ := h
      subst ho
      exact ⟨by omega, hnd, hb⟩

/-- C7: whenever ReadSample returns, the result is a sequence of exactly
min(k, n) pairwise-distinct integers in [0, n); in particular for k > n it
returns exactly n values, all of [0, n). -/
theorem readSample_spec (n k : Int) (hn : 0 ≤ n) (hk : 0 ≤ k) (h63 : n < 2 ^ 63) :
    ∀ fuel loopFuel (src : Src) out src',
      ReadSample fuel loopFuel src n k = some (.ok (out, src')) →
      out.length = min k.toNat n.toNat ∧ out.Nodup ∧
      (∀ x ∈ out, 0 ≤ x ∧ x < n) ∧
      (n < k → out.Perm ((List.range n.toNat).map (fun j : Nat => (j : Int)))) := by
  intro fuel loopFuel src out src' h
  unfold ReadSample ReadSampleGo at h
  set kk : Int := if n < k then n else k with hkk
  have hkk0 : 0 ≤ kk := by rw [hkk]; split_ifs <;> omega
  have hkkn : kk ≤ n := by rw [hkk]; split_ifs <;> omega
  have hkkk : kk ≤ k := by rw [hkk]; split_ifs <;> omega
  have hkkmin : kk.toNat = min k.toNat n.toNat := by
    rw [hkk]; split_ifs with hc <;> omega
  have hdiv : Int.tdiv n 2 = ((n.toNat / 2 : Nat) : Int) := by
    conv_lhs => rw [← Int.toNat_of_nonneg hn]
    exact (Int.ofNat_tdiv _ _).symm
  have hmapnd : ((List.range n.toNat).map (fun j : Nat => (j : Int))).Nodup :=
    (List.nodup_range n.toNat).map (fun a b hab => by exact_mod_cast hab)
  split_ifs at h with hdense
  · -- dense path: permutation prefix
    split at h
    · simp at h
    · simp at h
    · rename_i m src₂ heq
      simp only [Option.some.injEq, Except.ok.injEq, Prod.mk.injEq] at h
      obtain ⟨ho, _⟩ := h
      subst ho
      obtain ⟨hlenm, hperm, _⟩ := readPerm_perm_aux n hn h63 fuel src m src₂ heq
      have hkkle : kk.toNat ≤ n.toNat := by omega
      refine ⟨?_, ?_, ?_, ?_⟩
      · simp [List.length_take, hlenm]
        omega
      · exact (hperm.nodup_iff.mpr hmapnd).sublist (List.take_sublist _ _)
      · intro x hx
        have hxm : x ∈ m := List.mem_of_mem_take hx
        have hxmap := hperm.mem_iff.mp hxm
        simp only [List.mem_map, List.mem_range] at hxmap
        obtain ⟨j, hj, hje⟩ := hxmap
        subst hje
        constructor
        · exact Int.ofNat_nonneg j
        · have : n = ((n.toNat : Nat) : Int) := by omega
          omega
      · intro hnk
        have hkkn' : kk = n := by rw [hkk, if_pos hnk]
        have : kk.toNat = m.length := by omega
        rw [this, List.take_length]
        exact hperm
  · -- sparse path: rejection loop
    rcases Nat.eq_zero_or_pos kk.toNat with hz | hpos
    · rw [hz, readSampleLoop_zero] at h
      simp only [Option.some.injEq, Except.ok.injEq, Prod.mk.injEq] at h
      obtain ⟨ho, _⟩ := h
      subst ho
      refine ⟨by simp; omega, List.nodup_nil, by simp, ?_⟩
      intro hnk
      have hkkn' : kk = n := by rw [hkk, if_pos hnk]
      have hn0 : n.toNat = 0 := by omega
      simp [hn0]
    · have hn0 : 0 < n := by omega
      have hspec := readSampleLoop_spec fuel n kk.toNat hn0 h63 loopFuel src [] out src'
        List.nodup_nil (by simp) (by simp) h
      refine ⟨by omega, hspec.2.1, hspec.2.2, ?_⟩
      intro hnk
      exfalso
      have hkkn' : kk = n := by rw [hkk, if_pos hnk]
      omega

/-- Witness for C7 at n = 4, k = 2 with source bytes 0x00 0x01: the sparse
path draws the distinct values 0 and 1. -/
theorem readSample_spec_witness :
    ([0, 1] : List Int).length = min (2 : Int).toNat (4 : Int).toNat ∧
    ([0, 1] : List Int).Nodup ∧
    (∀ x ∈ ([0, 1] : List Int), 0 ≤ x ∧ x < 4) ∧
    ((4 : Int) < 2 →
      ([0, 1] : List Int).Perm
        ((List.range (4 : Int).toNat).map (fun j : Nat => (j : Int)))) :=
  readSample_spec 4 2 (by norm_num) (by norm_num) (by norm_num) 1 2
    [(0 : Fin 256), 1] [0, 1] [] (by rfl)

end Rng
